import Mathlib

/-!
# Verification of the VPAT automation core

A shallow embedding, in Lean 4, of the core of the VPAT automation tool:

* `src/scanner/resultAggregator.ts` — WCAG tag decoding and per-criterion
  verdict aggregation (`parseWcagTag`, `aggregateResults`);
* `src/mapping/index.ts` — question scoring (`scoreQuestions`,
  `findRelevantResults`, `normalizeText`, `textsMatch`);
* `src/docx/reader.ts` — row classification (`classifyRow`);
* `src/docx/xmlHelpers.ts` / `src/docx/writer.ts` — the order-preserving
  XML node model and the cell mutator (`setCellText`, `updateTable`);
* the tree codec contract of spec §4.1 (the underlying XML parser/builder
  is the external `fast-xml-parser` dependency, not part of the sources;
  it is modelled from the spec).

JavaScript strings are modelled as Lean `String` (char lists).  JS string
routines used by the sources (`trim`, `toLowerCase`, `includes`, `split`,
`startsWith`, regular expressions over ASCII) are re-implemented below on
`List Char`, restricted to the ASCII character classes the JS regexes use
(`\d` = `[0-9]`, `\w` = `[A-Za-z0-9_]`, `\s` ⊇ ASCII whitespace).  JS
numbers holding integral scores, weights and counts are modelled as
`Int`/`Nat`.  JS `Map`/`Set` insertion-order semantics are modelled with
association lists and an insertion-order deduplication function.
-/

/-! ## Generic string/list helpers (JS semantics) -/

/-- ASCII whitespace, the `\s` class of the JS regexes as it applies to the
ASCII subset (space, tab, line feed, vertical tab, form feed, carriage
return). -/
def jsWs (c : Char) : Bool :=
  c == ' ' || c == '\t' || c == '\n' || c == '\x0b' || c == '\x0c' || c == '\r'

/-- The JS `\w` word-character class: `[A-Za-z0-9_]`. -/
def wordChar (c : Char) : Bool :=
  (('a' ≤ c && c ≤ 'z') || ('A' ≤ c && c ≤ 'Z') || ('0' ≤ c && c ≤ '9') || c == '_')

/-- `String.prototype.trim` on the ASCII subset: drop leading and trailing
whitespace. -/
def jsTrim (s : String) : String :=
  String.mk (((s.data.dropWhile jsWs).reverse.dropWhile jsWs).reverse)

/-- `String.prototype.toLowerCase` on the ASCII subset. -/
def jsLower (s : String) : String :=
  String.mk (s.data.map Char.toLower)

/-- `a.includes(b)` — substring test. -/
def jsIncludes (s needle : String) : Bool :=
  decide (needle.data <:+: s.data)

/-- `a.startsWith(b)`. -/
def jsStartsWith (s prefixStr : String) : Bool :=
  List.isPrefixOf prefixStr.data s.data

/-- Insertion-order deduplication with an accumulator of already-seen
elements: the semantics of iterating a JS `Set`/`Map` built by repeated
insertion. -/
def dedupAcc {α : Type} [DecidableEq α] (seen : List α) : List α → List α
  | [] => []
  | a :: rest => if a ∈ seen then dedupAcc seen rest else a :: dedupAcc (a :: seen) rest

/-- First-seen-order deduplication (`[...new Set(list)]` in JS). -/
def firstSeenDedup {α : Type} [DecidableEq α] (l : List α) : List α :=
  dedupAcc [] l

/-! ## `src/scanner/resultAggregator.ts` — data model

The record types below embed the interfaces of `src/types.ts` that the
aggregator consumes and produces (`AxeRuleResult`, `ScanResult`,
`WcagScResult`).  The string-literal union `'pass' | 'fail' | 'incomplete'`
becomes the inductive `VerdictStatus`; the `impact` union is modelled as an
optional string, which the aggregator never inspects. -/

inductive VerdictStatus where
  | pass
  | fail
  | incomplete
deriving DecidableEq, Repr

structure AxeRuleResult where
  ruleId : String
  description : String
  impact : Option String
  wcagTags : List String
  nodes : Nat
deriving DecidableEq, Repr

structure ScanResult where
  url : String
  timestamp : String
  violations : List AxeRuleResult
  passes : List AxeRuleResult
  incomplete : List AxeRuleResult
deriving DecidableEq, Repr

structure WcagScResult where
  sc : String
  status : VerdictStatus
  totalViolations : Nat
  urlsWithViolations : Nat
  totalUrls : Nat
  topIssues : List String
deriving DecidableEq, Repr

/-- `parseWcagTag` (resultAggregator.ts lines 4–9): decode an axe tag of the
form `wcag<d><d><digits>` (regex `^wcag(\d)(\d)(\d+)$`) into the dotted
criterion id `<d>.<d>.<digits>`; any other tag yields `null`. -/
def parseWcagTag (tag : String) : Option String :=
  match tag.data with
  | 'w' :: 'c' :: 'a' :: 'g' :: d1 :: d2 :: rest =>
    if d1.isDigit && d2.isDigit && !rest.isEmpty && rest.all Char.isDigit then
      some (String.mk (d1 :: '.' :: d2 :: '.' :: rest))
    else none
  | _ => none

/-! `aggregateResults` (resultAggregator.ts lines 12–95) accumulates, per
decoded criterion id, a `url → descriptions` map for violations, a set of
urls for passes, a set of urls for incomplete results, and a flat
description list; it then resolves one `WcagScResult` per id.  The
imperative accumulation is embedded functionally: for a fixed id the
per-id data is exactly a recomputation over the scan-result list in
traversal order, so each field of the per-id entry is defined directly as
that recomputation. -/

/-- Criterion ids decoded from one finding's tag list, in tag order. -/
def decodedSCs (f : AxeRuleResult) : List String :=
  f.wcagTags.filterMap parseWcagTag

/-- All `(url, description)` pushes recorded for criterion `sc` by the
violation loop (lines 22–37), in traversal order.  One push happens per
decoded tag occurrence, so entries are not deduplicated. -/
def violationEntries (scanResults : List ScanResult) (sc : String) : List (String × String) :=
  scanResults.flatMap (fun r => r.violations.flatMap (fun v =>
    (decodedSCs v).filterMap (fun s => if s = sc then some (r.url, v.description) else none)))

/-- The url set accumulated for criterion `sc` by the incomplete loop
(lines 53–63), in insertion order. -/
def incompleteUrls (scanResults : List ScanResult) (sc : String) : List String :=
  firstSeenDedup (scanResults.flatMap (fun r =>
    if r.incomplete.any (fun f => (decodedSCs f).contains sc) then [r.url] else []))

/-- The criterion ids present in the accumulator map, in first-insertion
order (violations, then passes, then incomplete, per scan result). -/
def scKeys (scanResults : List ScanResult) : List String :=
  firstSeenDedup (scanResults.flatMap (fun r =>
    r.violations.flatMap decodedSCs ++ r.passes.flatMap decodedSCs ++
      r.incomplete.flatMap decodedSCs))

/-- The final per-criterion result (lines 68–92): verdict resolution,
total violation count, distinct-url count, total url count and the first
three deduplicated issue descriptions. -/
def buildScResult (scanResults : List ScanResult) (sc : String) : WcagScResult :=
  let entries := violationEntries scanResults sc
  { sc := sc
    status :=
      if !entries.isEmpty then VerdictStatus.fail
      else if !(incompleteUrls scanResults sc).isEmpty then VerdictStatus.incomplete
      else VerdictStatus.pass
    totalViolations := entries.length
    urlsWithViolations := (firstSeenDedup (entries.map Prod.fst)).length
    topIssues := (firstSeenDedup (entries.map Prod.snd)).take 3
    totalUrls := scanResults.length }

/-- `aggregateResults` (lines 12–95): one `WcagScResult` per criterion id
seen in any violation, pass or incomplete finding. -/
def aggregateResults (scanResults : List ScanResult) : List (String × WcagScResult) :=
  (scKeys scanResults).map (fun sc => (sc, buildScResult scanResults sc))

/-! ## `src/mapping/index.ts` — text normalization and fuzzy matching -/

/-- `text.replace(/\s+/g, ' ')` on the ASCII subset: collapse every run of
whitespace into a single space. -/
def collapseWs : List Char → List Char
  | [] => []
  | [c] => if jsWs c then [' '] else [c]
  | c :: d :: rest =>
    if jsWs c then
      (if jsWs d then collapseWs (d :: rest) else ' ' :: collapseWs (d :: rest))
    else c :: collapseWs (d :: rest)

/-- `normalizeText` (mapping/index.ts lines 130–136): collapse whitespace,
strip everything outside `\w`/`\s`, trim, lowercase. -/
def normalizeText (text : String) : String :=
  jsLower (jsTrim (String.mk ((collapseWs text.data).filter (fun c => wordChar c || jsWs c))))

/-- `s.split(' ')` semantics on a char list (empty segments kept, as in
JS `String.prototype.split` with a plain separator). -/
def splitOnSpace : List Char → List (List Char)
  | [] => [[]]
  | c :: rest =>
    if c = ' ' then [] :: splitOnSpace rest
    else
      match splitOnSpace rest with
      | [] => [[c]]
      | w :: ws => (c :: w) :: ws

/-- The significant words of an already-normalized string: the source's
`a.split(/\s+/).filter(w => w.length > 2)`.  After `normalizeText` the only
whitespace left is single spaces, so splitting on `' '` and discarding the
short (hence also the empty) segments agrees with splitting on `/\s+/`. -/
def sigWords (s : String) : List String :=
  ((splitOnSpace s.data).map String.mk).filter (fun w => w.length > 2)

/-- `join('; ')`. -/
def joinSep (sep : String) : List String → String
  | [] => ""
  | [s] => s
  | s :: rest => s ++ sep ++ joinSep sep rest

/-- `textsMatch` (mapping/index.ts lines 139–159).  The unused local
variables `templateClean`/`mappingClean` of the source (dead code) are
omitted.  The JS ratio test `matchCount / max > 0.7` is computed in 64-bit
floating point; for list lengths far below `2^49` that comparison agrees
with the exact rational test `10 * matchCount > 7 * max` (the double
nearest `0.7` lies just below `7/10`, and the division error is below the
spacing to the next representable rational), which is how it is embedded
here. -/
def textsMatch (templateText mappingText : String) : Bool :=
  let a := normalizeText templateText
  let b := normalizeText mappingText
  if a = b then true
  else
    let aWords := sigWords a
    let bWords := sigWords b
    if aWords.isEmpty || bWords.isEmpty then false
    else
      let matchCount :=
        (aWords.filter (fun w => bWords.any (fun bw => jsIncludes bw w || jsIncludes w bw))).length
      decide (10 * matchCount > 7 * max aWords.length bWords.length)

/-! ## Template data model (`src/types.ts`) -/

inductive RowType where
  | header
  | «section»
  | question
  | subtotal
  | empty
deriving DecidableEq, Repr

inductive TableCategory where
  | perceivable
  | operable
  | understandable
  | robust
deriving DecidableEq, Repr

structure ParsedRow where
  rowIndex : Nat
  type : RowType
  cells : List String
  questionText : Option String := none
  weight : Option Int := none
  score : Option String := none
  weightedScore : Option String := none
  comment : Option String := none
  sectionName : Option String := none
deriving DecidableEq, Repr

structure ParsedTable where
  tableIndex : Nat
  category : TableCategory
  rows : List ParsedRow
deriving DecidableEq, Repr

structure ParsedProduct where
  name : String
  productIndex : Nat
  standardsTableIndex : Int
  tables : List ParsedTable
deriving DecidableEq, Repr

structure QuestionScore where
  rowIndex : Nat
  tableIndex : Nat
  questionText : String
  score : Option Int
  weight : Int
  weightedScore : Option Int
  comment : String
  automatable : Bool
deriving DecidableEq, Repr

structure QuestionDef where
  questionText : String
  rowIndices : List (String × Nat) := []
  axeRules : List String
  automatable : Bool
  weight : Option Int := none
deriving DecidableEq, Repr

structure WcagToQuestionEntry where
  wcagSc : String
  sectionName : String
  questions : List QuestionDef
deriving DecidableEq, Repr

/-! ## `src/mapping/index.ts` — question scoring -/

/-- The capture of the section-name regex `^(\d+\.\d+):` — the
criterion-section prefix, or `none` when the regex does not match. -/
def secPrefixCapture (s : String) : Option String :=
  let cs := s.data
  let d1 := cs.takeWhile Char.isDigit
  if d1.isEmpty then none
  else
    match cs.dropWhile Char.isDigit with
    | '.' :: rest2 =>
      let d2 := rest2.takeWhile Char.isDigit
      if d2.isEmpty then none
      else
        match rest2.dropWhile Char.isDigit with
        | ':' :: _ => some (String.mk (d1 ++ '.' :: d2))
        | _ => none
    | _ => none

/-- The test of the row-classification regex `^\d+\.\d+:` (reader.ts line
25) — the same pattern without the capture. -/
def secPrefixTest (s : String) : Bool :=
  (secPrefixCapture s).isSome

/-- `findRelevantResults` (mapping/index.ts lines 112–127): every verdict
whose criterion id equals the section prefix or starts with
`prefix + "."`.  The `axeRules` parameter is accepted and ignored, exactly
as in the source. -/
def findRelevantResults (scPrefix : String) (axeRules : List String)
    (wcagResults : List (String × WcagScResult)) : List WcagScResult :=
  wcagResults.filterMap (fun p =>
    if jsStartsWith p.1 (scPrefix ++ ".") || p.1 = scPrefix then some p.2 else none)

/-- The mapping lookup of `scoreQuestions` (lines 28–31): first entry with
the current section prefix, then first question definition whose recorded
text fuzzy-matches the row's question text. -/
def lookupQuestionDef (questionMapping : List WcagToQuestionEntry)
    (scPrefix questionText : String) : Option QuestionDef :=
  (questionMapping.find? (fun e => e.wcagSc = scPrefix)).bind
    (fun e => e.questions.find? (fun q => textsMatch questionText q.questionText))

/-- `questionDef?.automatable ?? false` (line 35). -/
def automatableFor (questionMapping : List WcagToQuestionEntry)
    (scPrefix questionText : String) : Bool :=
  ((lookupQuestionDef questionMapping scPrefix questionText).map
    (fun q => q.automatable)).getD false

/-- The automatable scoring path (lines 45–68): verdict-driven score and
comment. -/
def autoScoreComment (relevantResults : List WcagScResult) : Option Int × String :=
  if !relevantResults.isEmpty then
    let hasFailures := relevantResults.any (fun r => decide (r.status = VerdictStatus.fail))
    let hasIncomplete := relevantResults.any (fun r => decide (r.status = VerdictStatus.incomplete))
    if hasFailures then
      let failResults := relevantResults.filter (fun r => decide (r.status = VerdictStatus.fail))
      let totalViolations := (failResults.map (fun r => r.totalViolations)).sum
      let urlCount := (firstSeenDedup (failResults.map (fun r => r.urlsWithViolations))).length
      let topIssues := (failResults.flatMap (fun r => r.topIssues)).take 3
      (some 0, "Found " ++ toString totalViolations ++ " violation(s) across " ++
        toString urlCount ++ " page(s). Issues: " ++ joinSep "; " topIssues)
    else if hasIncomplete then
      (none, "Requires manual review — axe-core returned incomplete results.")
    else
      let totalUrls := ((relevantResults.head?).map (fun r => r.totalUrls)).getD 0
      (some 1, "No issues found across " ++ toString totalUrls ++ " page(s).")
  else
    (none, "No automated test coverage for this criterion.")

/-- The manual scoring path (lines 69–89): preserve an existing recorded
`"1"`/`"0"`, else use a non-null carry-forward score keyed
`tableIndex:rowIndex`, else a null score with the existing comment or a
default. -/
def manualScoreComment (carryForwardScores : Option (List (String × QuestionScore)))
    (tableIndex : Nat) (row : ParsedRow) : Option Int × String :=
  let existingScore := jsTrim (row.score.getD "")
  let existingComment := jsTrim (row.comment.getD "")
  if existingScore = "1" || existingScore = "0" then
    (some (if existingScore = "1" then 1 else 0), existingComment)
  else
    let fallback : Option Int × String :=
      (none, if existingComment = "" then "Manual review required." else existingComment)
    match carryForwardScores with
    | some cfs =>
      match List.lookup (toString tableIndex ++ ":" ++ toString row.rowIndex) cfs with
      | some cfScore => if cfScore.score.isSome then (cfScore.score, cfScore.comment) else fallback
      | none => fallback
    | none => fallback

/-- Scoring of one question row (the body of the inner loop, lines 23–103),
under the section prefix in effect at that row. -/
def scoreRow (questionMapping : List WcagToQuestionEntry)
    (wcagResults : List (String × WcagScResult))
    (carryForwardScores : Option (List (String × QuestionScore)))
    (tableIndex : Nat) (scPrefix : String) (row : ParsedRow) : QuestionScore :=
  let questionText := row.questionText.getD ""
  let weight := row.weight.getD 0
  let questionDef := lookupQuestionDef questionMapping scPrefix questionText
  let sc :=
    match questionDef with
    | some qd =>
      if qd.automatable then
        autoScoreComment (findRelevantResults scPrefix qd.axeRules wcagResults)
      else manualScoreComment carryForwardScores tableIndex row
    | none => manualScoreComment carryForwardScores tableIndex row
  { rowIndex := row.rowIndex
    tableIndex := tableIndex
    questionText := questionText
    score := sc.1
    weight := weight
    weightedScore := sc.1.map (fun v => weight * v)
    comment := sc.2
    automatable := (questionDef.map (fun q => q.automatable)).getD false }

/-- The row loop of `scoreQuestions` (lines 18–105): a scan over the rows
of one table, threading the current section name and section prefix;
section rows update the state, question rows with non-empty text emit one
`QuestionScore`. -/
def scoreRows (questionMapping : List WcagToQuestionEntry)
    (wcagResults : List (String × WcagScResult))
    (carryForwardScores : Option (List (String × QuestionScore)))
    (tableIndex : Nat) : String → String → List ParsedRow → List QuestionScore
  | _, _, [] => []
  | curSection, curPrefix, row :: rest =>
    if row.type = RowType.«section» then
      let s := row.sectionName.getD ""
      scoreRows questionMapping wcagResults carryForwardScores tableIndex
        s ((secPrefixCapture s).getD "") rest
    else if row.type = RowType.question ∧ row.questionText.getD "" ≠ "" then
      scoreRow questionMapping wcagResults carryForwardScores tableIndex curPrefix row ::
        scoreRows questionMapping wcagResults carryForwardScores tableIndex
          curSection curPrefix rest
    else
      scoreRows questionMapping wcagResults carryForwardScores tableIndex
        curSection curPrefix rest

/-- `scoreQuestions` (mapping/index.ts lines 5–109), with the mapping that
the source loads from disk (`loadQuestionMapping()`) passed as an explicit
argument, per spec §6 (mapping tables are treated as already-loaded
in-memory data). -/
def scoreQuestions (questionMapping : List WcagToQuestionEntry) (product : ParsedProduct)
    (wcagResults : List (String × WcagScResult))
    (carryForwardScores : Option (List (String × QuestionScore))) : List QuestionScore :=
  (product.tables.map (fun t =>
    scoreRows questionMapping wcagResults carryForwardScores t.tableIndex "" "" t.rows)).flatten

/-- The section state (`currentSection`, `currentScPrefix`) in effect after
a prefix of the row list has been traversed by the loop of
`scoreQuestions`. -/
def prefixAfter (curSection curPrefix : String) : List ParsedRow → String × String
  | [] => (curSection, curPrefix)
  | row :: rest =>
    if row.type = RowType.«section» then
      let s := row.sectionName.getD ""
      prefixAfter s ((secPrefixCapture s).getD "") rest
    else prefixAfter curSection curPrefix rest

/-! ## `src/docx/reader.ts` — row classification -/

/-- `classifyRow` (reader.ts lines 20–30).  The `cellCount` parameter is
accepted and ignored, exactly as in the source. -/
def classifyRow (cells : List String) (cellCount : Nat) : RowType :=
  let firstCell := jsTrim ((cells.head?).getD "")
  if jsLower firstCell = "questions" then RowType.header
  else if jsIncludes (jsLower firstCell) "category subtotal" then RowType.subtotal
  else if secPrefixTest firstCell then RowType.«section»
  else if firstCell = "" ∧ cells.all (fun c => decide (jsTrim c = "")) then RowType.empty
  else if firstCell.length > 0 then RowType.question
  else RowType.empty

/-! ## The order-preserving XML tree (`fast-xml-parser` preserveOrder form)

A parsed node is either a text leaf (`{'#text': s}`) or a tagged element
(`{tag: children, ':@': attrs}`); siblings are an ordered array (spec §3
"Structural Node", §9).  Attribute names are stored without the `@_`
prefix the library adds internally. -/

inductive Node where
  | text (s : String)
  | elem (tag : String) (attrs : List (String × String)) (children : List Node)
deriving Repr

/-- `tagName in node` — whether a node is an element with the given tag. -/
def hasKey (tag : String) (node : Node) : Bool :=
  match node with
  | .elem t _ _ => t = tag
  | .text _ => false

/-- `getChildren` (xmlHelpers.ts lines 69–73): the child array of an
element under its wrapper key, `[]` otherwise. -/
def getChildren (node : Node) (parentTag : String) : List Node :=
  match node with
  | .elem t _ cs => if t = parentTag then cs else []
  | .text _ => []

mutual
/-- `extractText` (xmlHelpers.ts lines 31–44): concatenated leaf text of a
node, skipping attribute entries. -/
def extractText : Node → String
  | .text s => s
  | .elem _ _ cs => extractTextList cs

/-- `extractText` applied to a child array (the `Array.isArray` branch). -/
def extractTextList : List Node → String
  | [] => ""
  | n :: ns => extractText n ++ extractTextList ns
end

mutual
/-- Depth-first search of one node for elements carrying a tag: the node
itself (when it matches) followed by matches inside its child array. -/
def findInNode (tag : String) : Node → List Node
  | .text _ => []
  | .elem t a cs => (if t = tag then [Node.elem t a cs] else []) ++ findInNodes tag cs

/-- Depth-first search of a node array, in sibling order. -/
def findInNodes (tag : String) : List Node → List Node
  | [] => []
  | n :: ns => findInNode tag n ++ findInNodes tag ns
end

/-- `findElements` (xmlHelpers.ts lines 47–66). -/
def findElements (nodes : List Node) (tagName : String) : List Node :=
  findInNodes tagName nodes

/-- `getTextFromRuns` (xmlHelpers.ts lines 76–79): text of every `w:t`
element below the given nodes, concatenated. -/
def getTextFromRuns (nodes : List Node) : String :=
  joinSep "" ((findElements nodes "w:t").map (fun te => extractTextList (getChildren te "w:t")))

/-- `getCellText` (xmlHelpers.ts lines 136–138). -/
def getCellText (tcNode : Node) : String :=
  getTextFromRuns (getChildren tcNode "w:tc")

/-! ## `src/docx/xmlHelpers.ts` — the cell mutator -/

/-- Setting `'@_xml:space': 'preserve'` on an attribute map, preserving
every other attribute. -/
def setTextAttr (attrs : List (String × String)) : List (String × String) :=
  if attrs.any (fun p => decide (p.1 = "xml:space")) then
    attrs.map (fun p => if p.1 = "xml:space" then ("xml:space", "preserve") else p)
  else attrs ++ [("xml:space", "preserve")]

/-- A fresh `w:t` element holding the replacement text
(`{'w:t': [{'#text': text}], ':@': {'@_xml:space': 'preserve'}}`). -/
def mkTextEl (text : String) : Node :=
  Node.elem "w:t" [("xml:space", "preserve")] [Node.text text]

/-- The in-place update of the first run (setCellText lines 113–129):
replace the first `w:t` child's content (dropping any further `w:t`
children, appending the rewritten one), or append a fresh `w:t` when none
exists. -/
def updateFirstRun (run : Node) (text : String) : Node :=
  match run with
  | .elem t ra rcs =>
    match rcs.find? (hasKey "w:t") with
    | some t0 =>
      let ta := match t0 with
        | .elem _ a _ => a
        | .text _ => []
      .elem t ra (rcs.filter (fun c => !(hasKey "w:t" c)) ++ [.elem "w:t" (setTextAttr ta) [.text text]])
    | none => .elem t ra (rcs ++ [mkTextEl text])
  | other => other

/-- Apply `f` to the first list element satisfying `p` (the JS pattern of
taking `filter(...)[0]` and mutating it in place). -/
def mapFirst (p : Node → Bool) (f : Node → Node) : List Node → List Node
  | [] => []
  | c :: cs => if p c then f c :: cs else c :: mapFirst p f cs

/-- `setCellText` (xmlHelpers.ts lines 93–133), as a function returning the
rewritten cell: locate the first `w:p` child; inside it, rewrite the first
`w:r` (or synthesize one when none exists) and drop every other `w:r`,
keeping non-run children in place and appending the rewritten run at the
end.  A node that is not a `w:tc` element, or a cell with no paragraph, is
returned unchanged (the source returns without mutating). -/
def setCellText (tcNode : Node) (text : String) : Node :=
  match tcNode with
  | .elem t a cs =>
    if t = "w:tc" then
      if cs.any (hasKey "w:p") then
        .elem t a (mapFirst (hasKey "w:p") (fun para =>
          match para with
          | .elem pt pa pcs =>
            match pcs.find? (hasKey "w:r") with
            | none => .elem pt pa (pcs ++ [.elem "w:r" [] [mkTextEl text]])
            | some r => .elem pt pa (pcs.filter (fun c => !(hasKey "w:r" c)) ++ [updateFirstRun r text])
          | other => other) cs)
      else tcNode
    else tcNode
  | .text s => tcNode

/-! ## `src/docx/writer.ts` — table update -/

/-- Apply `f i` to the element at position `i`, counting from `start`: the
`for (let i = 0; ...)` loops of `updateTable` that rewrite the node at each
index. -/
def mapIdxFrom {α : Type} (f : Nat → α → α) : Nat → List α → List α
  | _, [] => []
  | i, a :: rest => f i a :: mapIdxFrom f (i + 1) rest

/-- Replace the elements of `cs` satisfying `p` by the elements of `news`,
in order, leaving every other element in place: the functional rendering of
mutating the nodes of `cs.filter(p)` in place. -/
def replaceFiltered (p : Node → Bool) : List Node → List Node → List Node
  | _, [] => []
  | news, c :: cs =>
    if p c then
      match news with
      | [] => c :: replaceFiltered p [] cs
      | n :: ns => n :: replaceFiltered p ns cs
    else c :: replaceFiltered p news cs

/-- The `w:tr` children of a table node (writer.ts line 158). -/
def tableRowNodes (tableNode : Node) : List Node :=
  (getChildren tableNode "w:tbl").filter (hasKey "w:tr")

/-- The `w:tc` children of a row node (writer.ts line 177). -/
def rowCellNodes (trNode : Node) : List Node :=
  (getChildren trNode "w:tr").filter (hasKey "w:tc")

/-- The cell texts of a row, as extracted by the reader (reader.ts line
45). -/
def rowCellTexts (trNode : Node) : List String :=
  (rowCellNodes trNode).map getCellText

/-- The per-cell rewrite of `updateTable` (writer.ts lines 183–199): cell 2
gets the score text, cell 3 the weighted-score text; when the row has at
least five cells and the comment is non-empty, cell 4 gets the comment and
cells 5 and beyond are cleared. -/
def cellUpdater (s : QuestionScore) (count : Nat) (i : Nat) (tc : Node) : Node :=
  if i = 2 then setCellText tc (match s.score with | none => "*" | some v => toString v)
  else if i = 3 then setCellText tc (match s.weightedScore with | none => "" | some v => toString v)
  else if 4 ≤ i ∧ 5 ≤ count ∧ s.comment ≠ "" then
    (if i = 4 then setCellText tc s.comment else setCellText tc "")
  else tc

/-- One matched row's update (writer.ts lines 176–200): rows with fewer
than four cells are left unchanged. -/
def updateRowCells (tr : Node) (s : QuestionScore) : Node :=
  match tr with
  | .elem t a cs =>
    if t = "w:tr" then
      let tcs := cs.filter (hasKey "w:tc")
      if 4 ≤ tcs.length then
        .elem t a (replaceFiltered (hasKey "w:tc") (mapIdxFrom (cellUpdater s tcs.length) 0 tcs) cs)
      else tr
    else tr
  | other => other

/-- The subtotal-row rewrite (writer.ts lines 220–224): cell 6 receives the
weighted-score total, cell 5 the max-possible total. -/
def updateSubtotalRow (tr : Node) (totalWeightedScore totalMaxScore : Int) : Node :=
  match tr with
  | .elem t a cs =>
    if t = "w:tr" then
      let tcs := cs.filter (hasKey "w:tc")
      .elem t a (replaceFiltered (hasKey "w:tc") (mapIdxFrom (fun i tc =>
        if i = 6 then setCellText tc (toString totalWeightedScore)
        else if i = 5 then setCellText tc (toString totalMaxScore)
        else tc) 0 tcs) cs)
    else tr
  | other => other

/-- `updateTable` (writer.ts lines 153–227): rewrite score, weighted-score
and comment cells of every row matched by the score map (`Map.set`
overwrite semantics: the last score for a row index wins), accumulate the
two subtotal totals over matched rows, and rewrite the trailing subtotal
row when its first cell mentions "category subtotal" and it has at least
seven cells. -/
def updateTable (tableNode : Node) (scores : List QuestionScore) (tableIndex : Nat) : Node :=
  let trNodes := tableRowNodes tableNode
  let relevant := scores.filter (fun s => decide (s.tableIndex = tableIndex))
  let lookupScore := fun (i : Nat) => relevant.reverse.find? (fun s => decide (s.rowIndex = i))
  let newTrs := mapIdxFrom (fun i tr =>
    match lookupScore i with
    | none => tr
    | some s => updateRowCells tr s) 0 trNodes
  let matched := (List.range trNodes.length).filterMap lookupScore
  let totalWeightedScore := (matched.filterMap (fun s => s.weightedScore)).sum
  let totalMaxScore := (matched.filterMap (fun s => if s.score.isSome then some s.weight else none)).sum
  let finalTrs :=
    match newTrs.getLast? with
    | none => newTrs
    | some lastRow =>
      let lastCells := rowCellNodes lastRow
      let firstCellText := jsLower (jsTrim (((lastCells.head?).map getCellText).getD ""))
      if jsIncludes firstCellText "category subtotal" then
        if 7 ≤ lastCells.length then
          newTrs.dropLast ++ [updateSubtotalRow lastRow totalWeightedScore totalMaxScore]
        else newTrs
      else newTrs
  match tableNode with
  | .elem t a cs => if t = "w:tbl" then .elem t a (replaceFiltered (hasKey "w:tr") finalTrs cs) else tableNode
  | other => other

/-- The row classification of a whole table, as the reader performs it
(reader.ts lines 41–46): cell texts per row, then `classifyRow`. -/
def rowTypesOf (tableNode : Node) : List RowType :=
  (tableRowNodes tableNode).map (fun tr => classifyRow (rowCellTexts tr) (rowCellNodes tr).length)

/-! ## The tree codec (spec §4.1)

The XML parse/serialize pair the sources obtain from the external
`fast-xml-parser` package (`parseXml`/`buildXml`, xmlHelpers.ts lines
20–28).  That package is a dependency, not part of this repository's
sources, so the codec is modelled from the spec over the narrow markup
subset of §1 (elements, attributes, text; order-preserving; attributes
distinct from content; malformed input is rejected outright). -/

/-- Modelled from the spec: tag- and attribute-name characters of the
markup subset. -/
def isNameChar (c : Char) : Bool :=
  c.isAlphanum || c == ':' || c == '-' || c == '_' || c == '.'

/-- Modelled from the spec: serialization of an attribute map. -/
def serAttrs : List (String × String) → List Char
  | [] => []
  | (k, v) :: rest => ' ' :: (k.data ++ '=' :: '"' :: v.data ++ ('"' :: serAttrs rest))

mutual
/-- Modelled from the spec: serialization of one node (`serialize`,
§4.1). -/
def serNode : Node → List Char
  | .text s => s.data
  | .elem t attrs cs =>
    '<' :: (t.data ++ serAttrs attrs ++ '>' :: (serNodesList cs ++ '<' :: '/' :: (t.data ++ ['>'])))

/-- Modelled from the spec: serialization of a sibling sequence. -/
def serNodesList : List Node → List Char
  | [] => []
  | n :: ns => serNode n ++ serNodesList ns
end

/-- Modelled from the spec: `serialize(Tree) -> string` (§4.1). -/
def buildXml (nodes : List Node) : String :=
  String.mk (serNodesList nodes)

/-- Modelled from the spec: parse the attribute list — zero or more
` name="value"` groups. -/
def parseAttrs : Nat → List Char → Option (List (String × String) × List Char)
  | 0, cs =>
    match cs with
    | ' ' :: _ => none
    | _ => some ([], cs)
  | fuel + 1, cs =>
    match cs with
    | ' ' :: rest =>
      if (rest.takeWhile isNameChar).isEmpty then none
      else
        match rest.dropWhile isNameChar with
        | '=' :: '"' :: rest2 =>
          match rest2.dropWhile (fun c => !(c == '"')) with
          | '"' :: rest3 =>
            match parseAttrs fuel rest3 with
            | some (attrs, rest4) =>
              some ((String.mk (rest.takeWhile isNameChar),
                String.mk (rest2.takeWhile (fun c => !(c == '"')))) :: attrs, rest4)
            | none => none
          | _ => none
        | _ => none
    | _ => some ([], cs)

/-- Modelled from the spec: `parse(markup) -> Tree` (§4.1), fuel-bounded
recursive descent over the markup subset.  A sibling sequence ends at the
end of input or before a closing tag; an element is
`<name attrs> children </name>`; a text node is a maximal run without
`<`.  Any other shape is a fatal parse error (`none`). -/
def parseNodes : Nat → List Char → Option (List Node × List Char)
  | _, [] => some ([], [])
  | 0, _ :: _ => none
  | fuel + 1, c :: rest =>
    if c = '<' then
      match rest with
      | '/' :: rest2 => some ([], c :: '/' :: rest2)
      | _ =>
        if (rest.takeWhile isNameChar).isEmpty then none
        else
          match parseAttrs fuel (rest.dropWhile isNameChar) with
          | none => none
          | some (attrs, cs2) =>
            match cs2 with
            | '>' :: cs3 =>
              match parseNodes fuel cs3 with
              | none => none
              | some (children, cs4) =>
                match cs4 with
                | '<' :: '/' :: cs5 =>
                  if cs5.takeWhile isNameChar = rest.takeWhile isNameChar then
                    match cs5.dropWhile isNameChar with
                    | '>' :: cs6 =>
                      match parseNodes fuel cs6 with
                      | none => none
                      | some (siblings, rest7) =>
                        some (Node.elem (String.mk (rest.takeWhile isNameChar)) attrs
                          children :: siblings, rest7)
                    | _ => none
                  else none
                | _ => none
            | _ => none
    else
      match parseNodes fuel ((c :: rest).dropWhile (fun ch => !(ch == '<'))) with
      | none => none
      | some (ns, rest2) =>
        some (Node.text (String.mk ((c :: rest).takeWhile (fun ch => !(ch == '<')))) :: ns,
          rest2)

/-- Modelled from the spec: `parse(markup) -> Tree` at the document level —
the whole input must be consumed. -/
def parseXml (markup : String) : Option (List Node) :=
  match parseNodes (markup.data.length + 1) markup.data with
  | some (ns, []) => some ns
  | _ => none

/-! ## Concrete instances used by the theorems below -/

/-- A two-resource scan: one violation of `wcag111` on the first resource,
a pass of `wcag111` and an incomplete `wcag143` check on the second. -/
def sampleScan : List ScanResult :=
  [{ url := "https://a", timestamp := "t",
     violations := [{ ruleId := "image-alt", description := "d1", impact := some "serious",
                      wcagTags := ["wcag111", "wcag2a"], nodes := 2 }],
     passes := [], incomplete := [] },
   { url := "https://b", timestamp := "t",
     violations := [],
     passes := [{ ruleId := "image-alt", description := "", impact := none,
                  wcagTags := ["wcag111"], nodes := 0 }],
     incomplete := [{ ruleId := "color-contrast", description := "ic", impact := none,
                      wcagTags := ["wcag143"], nodes := 1 }] }]

/-- A verdict for criterion 1.1.1 that failed on two distinct resources
with two violations in total. -/
def wrC2 : List (String × WcagScResult) :=
  [("1.1.1", { sc := "1.1.1", status := VerdictStatus.fail, totalViolations := 2,
               urlsWithViolations := 2, totalUrls := 2, topIssues := ["d1", "d2"] })]

/-- A mapping with one automatable question under section prefix 1.1. -/
def qmC2 : List WcagToQuestionEntry :=
  [{ wcagSc := "1.1", sectionName := "1.1: Non-text Content",
     questions := [{ questionText := "Images have alt text", rowIndices := [],
                     axeRules := ["image-alt"], automatable := true, weight := some 3 }] }]

def rowSecC2 : ParsedRow :=
  { rowIndex := 0, type := RowType.«section», cells := ["1.1: Non-text Content"],
    sectionName := some "1.1: Non-text Content" }

def rowQC2 : ParsedRow :=
  { rowIndex := 1, type := RowType.question, cells := ["Images have alt text", "3", "", ""],
    questionText := some "Images have alt text", weight := some 3,
    score := some "", weightedScore := some "", comment := some "" }

def tableC2 : ParsedTable :=
  { tableIndex := 1, category := TableCategory.perceivable, rows := [rowSecC2, rowQC2] }

def productC2 : ParsedProduct :=
  { name := "P", productIndex := 0, standardsTableIndex := 0, tables := [tableC2] }

/-- A non-automatable question row whose recorded score cell is `"1"`. -/
def rowQC8 : ParsedRow :=
  { rowIndex := 1, type := RowType.question, cells := ["Manual q", "2", "1", "2"],
    questionText := some "Manual q", weight := some 2,
    score := some "1", weightedScore := some "2", comment := some "done manually" }

def tableC8 : ParsedTable :=
  { tableIndex := 0, category := TableCategory.perceivable, rows := [rowQC8] }

def productC8 : ParsedProduct :=
  { name := "P", productIndex := 0, standardsTableIndex := 0, tables := [tableC8] }

/-- A carry-forward map holding a conflicting score `0` for the same
`tableIndex:rowIndex` key as `rowQC8`. -/
def cfC8 : Option (List (String × QuestionScore)) :=
  some [("0:1", { rowIndex := 1, tableIndex := 0, questionText := "Manual q", score := some 0,
                  weight := 2, weightedScore := some 0, comment := "cf says fail",
                  automatable := false })]

/-- First paragraph of the two-paragraph cell: two runs, the first with a
formatting attribute. -/
def p1C3 : Node :=
  Node.elem "w:p" [] [Node.elem "w:r" [("x", "y")] [Node.elem "w:t" [] [Node.text "A"]],
                      Node.elem "w:r" [] [Node.elem "w:t" [] [Node.text "A2"]]]

/-- Second paragraph of the two-paragraph cell, with its own run. -/
def p2C3 : Node :=
  Node.elem "w:p" [] [Node.elem "w:r" [] [Node.elem "w:t" [] [Node.text "B"]]]

/-- A table cell containing two paragraphs that both contain text runs. -/
def tcTwoParas : Node :=
  Node.elem "w:tc" [] [p1C3, p2C3]

/-- The value of `classifyRow` as a function of the trimmed first cell
alone — the classifier never depends on the other cells (when the first
cell is blank, both the all-blank branch and the final fallthrough yield
`empty`). -/
def classifyFirst (firstCell : String) : RowType :=
  if jsLower firstCell = "questions" then RowType.header
  else if jsIncludes (jsLower firstCell) "category subtotal" then RowType.subtotal
  else if secPrefixTest firstCell then RowType.«section»
  else if firstCell = "" then RowType.empty
  else if firstCell.length > 0 then RowType.question
  else RowType.empty

/-- The score that `scoreQuestions` produces for `rowQC8` (preserved
manual score). -/
def qsC8 : QuestionScore :=
  { rowIndex := 1, tableIndex := 0, questionText := "Manual q", score := some 1,
    weight := 2, weightedScore := some 2, comment := "done manually", automatable := false }

/-! ## Helper lemmas -/

theorem dedupAcc_mem {α : Type} [DecidableEq α] (seen : List α) (l : List α) (x : α) :
    x ∈ dedupAcc seen l ↔ x ∈ l ∧ x ∉ seen := by
  induction l generalizing seen with
  | nil => simp [dedupAcc]
  | cons a rest ih =>
    simp only [dedupAcc]
    split_ifs with h
    · rw [ih seen]
      simp only [List.mem_cons]
      constructor
      · rintro ⟨hx, hns⟩; exact ⟨Or.inr hx, hns⟩
      · rintro ⟨rfl | hx, hns⟩
        · exact absurd h hns
        · exact ⟨hx, hns⟩
    · rw [List.mem_cons, ih (a :: seen)]
      simp only [List.mem_cons]
      constructor
      · rintro (rfl | ⟨hx, hns⟩)
        · exact ⟨Or.inl rfl, h⟩
        · exact ⟨Or.inr hx, fun hc => hns (Or.inr hc)⟩
      · rintro ⟨rfl | hx, hns⟩
        · exact Or.inl rfl
        · by_cases hxa : x = a
          · exact Or.inl hxa
          · exact Or.inr ⟨hx, fun hc => hc.elim hxa hns⟩

theorem dedupAcc_nodup {α : Type} [DecidableEq α] (seen : List α) (l : List α) :
    (dedupAcc seen l).Nodup := by
  induction l generalizing seen with
  | nil => simp [dedupAcc]
  | cons a rest ih =>
    simp only [dedupAcc]
    split_ifs with h
    · exact ih seen
    · refine List.nodup_cons.mpr ⟨?_, ih (a :: seen)⟩
      intro hc
      exact ((dedupAcc_mem (a :: seen) rest a).mp hc).2 (List.mem_cons_self a seen)

theorem firstSeenDedup_mem {α : Type} [DecidableEq α] (l : List α) (x : α) :
    x ∈ firstSeenDedup l ↔ x ∈ l := by
  simp [firstSeenDedup, dedupAcc_mem]

theorem firstSeenDedup_nodup {α : Type} [DecidableEq α] (l : List α) :
    (firstSeenDedup l).Nodup :=
  dedupAcc_nodup [] l

theorem firstSeenDedup_length {α : Type} [DecidableEq α] (l : List α) :
    (firstSeenDedup l).length = l.toFinset.card := by
  have h1 : (firstSeenDedup l).toFinset = l.toFinset := by
    ext x; simp [List.mem_toFinset, firstSeenDedup_mem]
  rw [← List.toFinset_card_of_nodup (firstSeenDedup_nodup l), h1]

theorem firstSeenDedup_eq_nil {α : Type} [DecidableEq α] (l : List α) :
    firstSeenDedup l = [] ↔ l = [] := by
  constructor
  · intro h
    rcases l with _ | ⟨a, rest⟩
    · rfl
    · exact absurd ((firstSeenDedup_mem (a :: rest) a).mpr (List.mem_cons_self a rest))
        (by simp [h])
  · rintro rfl; rfl

/-! ## C9 — WCAG tag decoding -/

/-- C9: `parseWcagTag` decodes every tag of the form `wcag<d><d><digits>`
to `<d>.<d>.<digits>` and returns `null` for every other tag; in
particular `wcag111 ↦ 1.1.1`, `wcag1411 ↦ 1.4.11`, and `wcag2a`,
`best-practice ↦ null`. -/
theorem claim9_parseWcagTag :
    (∀ tag out, parseWcagTag tag = some out ↔
      ∃ d1 d2 rest, tag.data = 'w' :: 'c' :: 'a' :: 'g' :: d1 :: d2 :: rest ∧
        d1.isDigit = true ∧ d2.isDigit = true ∧ rest ≠ [] ∧
        (∀ c ∈ rest, c.isDigit = true) ∧
        out = String.mk (d1 :: '.' :: d2 :: '.' :: rest)) ∧
    parseWcagTag "wcag111" = some "1.1.1" ∧
    parseWcagTag "wcag1411" = some "1.4.11" ∧
    parseWcagTag "wcag2a" = none ∧
    parseWcagTag "best-practice" = none := by
  refine ⟨?_, by decide, by decide, by decide, by decide⟩
  intro tag out
  constructor
  · intro h
    unfold parseWcagTag at h
    split at h
    · next d1 d2 rest heq =>
      split_ifs at h with hc
      simp only [Bool.and_eq_true, Bool.not_eq_true', List.isEmpty_eq_false,
        List.all_eq_true] at hc
      exact ⟨d1, d2, rest, heq, hc.1.1.1, hc.1.1.2, hc.1.2, hc.2,
        (Option.some.injEq _ _).mp h.symm⟩
    · exact absurd h (by simp)
  · rintro ⟨d1, d2, rest, heq, h1, h2, h3, h4, rfl⟩
    unfold parseWcagTag
    rw [heq]
    have hcond : (d1.isDigit && d2.isDigit && !rest.isEmpty && rest.all Char.isDigit) = true := by
      simp only [Bool.and_eq_true, Bool.not_eq_true', List.all_eq_true]
      exact ⟨⟨⟨h1, h2⟩, List.isEmpty_eq_false.mpr h3⟩, h4⟩
    simp [hcond]

/-! ## C7 — fuzzy text match -/

/-- C7 counterexample: `"abc"` and `"abcd"` share no significant word (the
word lists are `["abc"]` and `["abcd"]`, with no common element), yet
`textsMatch` returns `true`, because a word counts as matching when it is
merely a substring of (or contains) a word of the other string. -/
theorem claim7_counterexample :
    textsMatch "abc" "abcd" = true ∧
    sigWords (normalizeText "abc") = ["abc"] ∧
    sigWords (normalizeText "abcd") = ["abcd"] ∧
    (∀ w ∈ sigWords (normalizeText "abc"), w ∉ sigWords (normalizeText "abcd")) := by
  refine ⟨by decide, by decide, by decide, by decide⟩

/-- C7 as amended: two strings whose normalizations differ and whose
significant words are unrelated even under the substring test (no word of
one contains or is contained in a word of the other) never match. -/
theorem claim7_amended (s t : String)
    (hnorm : normalizeText s ≠ normalizeText t)
    (hdisj : ∀ w ∈ sigWords (normalizeText s), ∀ v ∈ sigWords (normalizeText t),
      ¬(w.data <:+: v.data) ∧ ¬(v.data <:+: w.data)) :
    textsMatch s t = false := by
  have hfilter : (sigWords (normalizeText s)).filter
      (fun w => (sigWords (normalizeText t)).any
        (fun bw => jsIncludes bw w || jsIncludes w bw)) = [] := by
    rw [List.filter_eq_nil_iff]
    intro w hw
    rw [List.any_eq_true]
    rintro ⟨bw, hbw, hor⟩
    rcases Bool.or_eq_true _ _ |>.mp hor with h | h
    · exact (hdisj w hw bw hbw).1 (of_decide_eq_true h)
    · exact (hdisj w hw bw hbw).2 (of_decide_eq_true h)
  by_cases hempty :
      ((sigWords (normalizeText s)).isEmpty || (sigWords (normalizeText t)).isEmpty) = true
  · simp [textsMatch, if_neg hnorm, hempty]
  · simp [textsMatch, if_neg hnorm, hempty, hfilter]

/-- C7 witness: two concrete strings with disjoint, substring-unrelated
significant words do not match. -/
theorem claim7_witness : textsMatch "abc def" "xyz uvw" = false :=
  claim7_amended "abc def" "xyz uvw" (by decide) (by decide)

/-! ## Provenance of emitted question scores -/

theorem scoreRows_mem_origin (qm : List WcagToQuestionEntry)
    (wr : List (String × WcagScResult)) (cf : Option (List (String × QuestionScore)))
    (ti : Nat) (rows : List ParsedRow) :
    ∀ sec pre qs, qs ∈ scoreRows qm wr cf ti sec pre rows →
      ∃ row, row ∈ rows ∧ row.type = RowType.question ∧
        ∃ spre, qs = scoreRow qm wr cf ti spre row := by
  induction rows with
  | nil => intro sec pre qs h; simp [scoreRows] at h
  | cons row rest ih =>
    intro sec pre qs h
    simp only [scoreRows] at h
    split_ifs at h with h1 h2
    · obtain ⟨r, hr, ht, spre, rfl⟩ := ih _ _ _ h
      exact ⟨r, List.mem_cons_of_mem _ hr, ht, spre, rfl⟩
    · rcases List.mem_cons.mp h with rfl | hmem
      · exact ⟨row, List.mem_cons_self _ _, h2.1, pre, rfl⟩
      · obtain ⟨r, hr, ht, spre, rfl⟩ := ih _ _ _ hmem
        exact ⟨r, List.mem_cons_of_mem _ hr, ht, spre, rfl⟩
    · obtain ⟨r, hr, ht, spre, rfl⟩ := ih _ _ _ h
      exact ⟨r, List.mem_cons_of_mem _ hr, ht, spre, rfl⟩

theorem scoreQuestions_mem_origin (qm : List WcagToQuestionEntry) (product : ParsedProduct)
    (wr : List (String × WcagScResult)) (cf : Option (List (String × QuestionScore)))
    (qs : QuestionScore) (h : qs ∈ scoreQuestions qm product wr cf) :
    ∃ table, table ∈ product.tables ∧ ∃ row, row ∈ table.rows ∧
      row.type = RowType.question ∧
      ∃ spre, qs = scoreRow qm wr cf table.tableIndex spre row := by
  obtain ⟨l, hl, hqs⟩ := List.mem_flatten.mp h
  obtain ⟨table, htab, rfl⟩ := List.mem_map.mp hl
  obtain ⟨row, hrow, ht, spre, rfl⟩ := scoreRows_mem_origin qm wr cf _ _ _ _ _ hqs
  exact ⟨table, htab, row, hrow, ht, spre, rfl⟩

/-! ## C10 — blank-first-cell rows -/

/-- C10: a row whose first cell is blank after trimming is classified
`empty` (never `question`), regardless of the remaining cells; and every
`QuestionScore` that `scoreQuestions` emits originates from a row
classified `question`, so such a row never receives one. -/
theorem claim10_blankRowEmpty :
    (∀ cells cellCount, jsTrim ((cells.head?).getD "") = "" →
      classifyRow cells cellCount = RowType.empty ∧
      classifyRow cells cellCount ≠ RowType.question) ∧
    (∀ qm product wr cf, ∀ qs ∈ scoreQuestions qm product wr cf,
      ∃ table, table ∈ product.tables ∧ ∃ row, row ∈ table.rows ∧
        row.type = RowType.question ∧
        qs.tableIndex = table.tableIndex ∧ qs.rowIndex = row.rowIndex) := by
  constructor
  · intro cells cellCount h
    have hempty : classifyRow cells cellCount = RowType.empty := by
      unfold classifyRow
      rw [h]
      have e1 : (jsLower "" = "questions") = False := by simp [jsLower]
      have e2 : jsIncludes (jsLower "") "category subtotal" = false := by decide
      have e3 : secPrefixTest "" = false := by decide
      simp only [e1, e2, e3, if_false, Bool.false_eq_true]
      split_ifs with h4 h5
      · rfl
      · exact absurd h5 (by decide)
      · rfl
    refine ⟨hempty, by simp [hempty]⟩
  · intro qm product wr cf qs h
    obtain ⟨table, htab, row, hrow, ht, spre, rfl⟩ :=
      scoreQuestions_mem_origin qm product wr cf qs h
    exact ⟨table, htab, row, hrow, ht, by simp [scoreRow], by simp [scoreRow]⟩

/-- C10 witness: the blank-first-cell row `["", "x"]` is classified
`empty`, and the concrete scoring run on `productC8` only emits scores for
question rows. -/
theorem claim10_witness :
    (classifyRow ["", "x"] 2 = RowType.empty ∧ classifyRow ["", "x"] 2 ≠ RowType.question) ∧
    (∃ table, table ∈ productC8.tables ∧ ∃ row, row ∈ table.rows ∧
      row.type = RowType.question ∧
      qsC8.tableIndex = table.tableIndex ∧ qsC8.rowIndex = row.rowIndex) :=
  ⟨claim10_blankRowEmpty.1 ["", "x"] 2 (by decide),
   claim10_blankRowEmpty.2 [] productC8 [] cfC8 qsC8 (by decide)⟩

/-! ## C6 — weighted-score law -/

/-- C6: for every emitted question score, `weightedScore` is null exactly
when `score` is null, and otherwise equals `weight * score`. -/
theorem claim6_weightedScoreLaw (qm : List WcagToQuestionEntry) (product : ParsedProduct)
    (wr : List (String × WcagScResult)) (cf : Option (List (String × QuestionScore)))
    (qs : QuestionScore) (h : qs ∈ scoreQuestions qm product wr cf) :
    (qs.weightedScore = none ↔ qs.score = none) ∧
    (∀ v, qs.score = some v → qs.weightedScore = some (qs.weight * v)) := by
  obtain ⟨table, htab, row, hrow, ht, spre, rfl⟩ :=
    scoreQuestions_mem_origin qm product wr cf qs h
  constructor
  · simp [scoreRow]
  · intro v hv
    simp only [scoreRow] at hv ⊢
    rw [hv]
    rfl

/-- C6 witness: the law instantiated on the concrete score emitted for
`productC8`. -/
theorem claim6_witness :
    qsC8.weightedScore = some (qsC8.weight * 1) :=
  (claim6_weightedScoreLaw [] productC8 [] cfC8 qsC8 (by decide)).2 1 (by decide)

/-! ## C8 — carry-forward precedence -/

theorem scoreRows_append (qm : List WcagToQuestionEntry)
    (wr : List (String × WcagScResult)) (cf : Option (List (String × QuestionScore)))
    (ti : Nat) (xs : List ParsedRow) :
    ∀ ys sec pre, scoreRows qm wr cf ti sec pre (xs ++ ys) =
      scoreRows qm wr cf ti sec pre xs ++
      scoreRows qm wr cf ti (prefixAfter sec pre xs).1 (prefixAfter sec pre xs).2 ys := by
  induction xs with
  | nil => intro ys sec pre; simp [scoreRows, prefixAfter]
  | cons row rest ih =>
    intro ys sec pre
    by_cases h1 : row.type = RowType.«section»
    · simp only [List.cons_append, scoreRows, prefixAfter, if_pos h1]
      exact ih ys _ _
    · by_cases h2 : row.type = RowType.question ∧ row.questionText.getD "" ≠ ""
      · simp only [List.cons_append, scoreRows, prefixAfter, if_neg h1, if_pos h2,
          List.append_eq]
        rw [ih ys _ _]
      · simp only [List.cons_append, scoreRows, prefixAfter, if_neg h1, if_neg h2]
        exact ih ys _ _

/-- C8: a question row whose section prefix resolves to a non-automatable
(or unmatched) question definition and whose recorded score cell trims to
`"1"` or `"0"` keeps that score and its existing comment in the emitted
`QuestionScore`, for every carry-forward map — including one holding a
conflicting score for the same `tableIndex:rowIndex` key. -/
theorem claim8_carryForwardPrecedence (qm : List WcagToQuestionEntry)
    (product : ParsedProduct) (wr : List (String × WcagScResult))
    (cf : Option (List (String × QuestionScore)))
    (table : ParsedTable) (pre1 post1 : List ParsedRow) (row : ParsedRow) (qt : String)
    (htab : table ∈ product.tables)
    (hrows : table.rows = pre1 ++ row :: post1)
    (hq : row.type = RowType.question)
    (hqt : row.questionText = some qt) (hne : qt ≠ "")
    (hauto : automatableFor qm (prefixAfter "" "" pre1).2 qt = false)
    (hexist : jsTrim (row.score.getD "") = "1" ∨ jsTrim (row.score.getD "") = "0") :
    ∃ qs, qs ∈ scoreQuestions qm product wr cf ∧
      qs.tableIndex = table.tableIndex ∧ qs.rowIndex = row.rowIndex ∧
      qs.questionText = qt ∧ qs.automatable = false ∧
      qs.score = some (if jsTrim (row.score.getD "") = "1" then 1 else 0) ∧
      qs.comment = jsTrim (row.comment.getD "") := by
  have hnots : ¬(row.type = RowType.«section») := by simp [hq]
  have hcond : row.type = RowType.question ∧ row.questionText.getD "" ≠ "" := by
    simp [hq, hqt, hne]
  have hman :
      (match lookupQuestionDef qm (prefixAfter "" "" pre1).2 qt with
        | some qd =>
          if qd.automatable then
            autoScoreComment (findRelevantResults (prefixAfter "" "" pre1).2 qd.axeRules wr)
          else manualScoreComment cf table.tableIndex row
        | none => manualScoreComment cf table.tableIndex row) =
      manualScoreComment cf table.tableIndex row := by
    cases hdef : lookupQuestionDef qm (prefixAfter "" "" pre1).2 qt with
    | none => rfl
    | some qd =>
      have hf : qd.automatable = false := by simpa [automatableFor, hdef] using hauto
      simp [hf]
  have hmanual : manualScoreComment cf table.tableIndex row =
      (some (if jsTrim (row.score.getD "") = "1" then 1 else 0),
       jsTrim (row.comment.getD "")) := by
    unfold manualScoreComment
    have : (decide (jsTrim (row.score.getD "") = "1") ||
        decide (jsTrim (row.score.getD "") = "0")) = true := by
      rcases hexist with h | h <;> simp [h]
    rw [if_pos (by simpa using this)]
  refine ⟨scoreRow qm wr cf table.tableIndex (prefixAfter "" "" pre1).2 row, ?_, ?_, ?_, ?_, ?_, ?_, ?_⟩
  · apply List.mem_flatten.mpr
    refine ⟨scoreRows qm wr cf table.tableIndex "" "" table.rows,
      List.mem_map.mpr ⟨table, htab, rfl⟩, ?_⟩
    rw [hrows, scoreRows_append]
    apply List.mem_append_right
    simp only [scoreRows, if_neg hnots, if_pos hcond]
    exact List.mem_cons_self _ _
  · simp [scoreRow]
  · simp [scoreRow]
  · simp [scoreRow, hqt]
  · simp only [scoreRow]
    rw [hqt]
    simpa [automatableFor] using hauto
  · simp only [scoreRow]
    rw [hqt]
    simp only [Option.getD_some]
    rw [hman, hmanual]
  · simp only [scoreRow]
    rw [hqt]
    simp only [Option.getD_some]
    rw [hman, hmanual]

/-- C8 witness: the concrete row `rowQC8` (recorded score `"1"`) keeps
score `1` and its comment although the carry-forward map `cfC8` supplies a
conflicting score `0` for the same key. -/
theorem claim8_witness :
    ∃ qs, qs ∈ scoreQuestions [] productC8 [] cfC8 ∧
      qs.score = some 1 ∧ qs.comment = "done manually" := by
  obtain ⟨qs, hmem, _, _, _, _, hscore, hcomm⟩ :=
    claim8_carryForwardPrecedence [] productC8 [] cfC8 tableC8 [] [] rowQC8 "Manual q"
      (by decide) rfl rfl rfl (by decide) rfl (Or.inl (by decide))
  exact ⟨qs, hmem, by rw [hscore]; decide, by rw [hcomm]; decide⟩

/-! ## C2 — failing-verdict comment (code bug) -/

/-- C2, evaluated at the failing input: the single relevant criterion
verdict records violations on **two** distinct resources
(`urlsWithViolations = 2`), yet the emitted comment reports
"across 1 page(s)", because the source computes
`new Set(failResults.map(r => r.urlsWithViolations)).size` — the number of
distinct per-criterion url **counts** — instead of the number of distinct
affected resources.  Score and weighted score behave as claimed. -/
theorem claim2_codeBug :
    scoreQuestions qmC2 productC2 wrC2 none =
      [{ rowIndex := 1, tableIndex := 1, questionText := "Images have alt text",
         score := some 0, weight := 3, weightedScore := some 0,
         comment := "Found 2 violation(s) across 1 page(s). Issues: d1; d2",
         automatable := true }] ∧
    wrC2.map (fun p => p.2.urlsWithViolations) = [2] :=
  ⟨by decide, by decide⟩

/-! ## C1 — verdict aggregation -/

theorem mem_violationEntries (scanResults : List ScanResult) (sc : String) (p : String × String) :
    p ∈ violationEntries scanResults sc ↔
      ∃ r ∈ scanResults, ∃ v ∈ r.violations, sc ∈ decodedSCs v ∧ p = (r.url, v.description) := by
  simp only [violationEntries, List.mem_flatMap, List.mem_filterMap,
    Option.ite_none_right_eq_some, Option.some.injEq]
  constructor
  · rintro ⟨r, hr, v, hv, s, hs, rfl, rfl⟩
    exact ⟨r, hr, v, hv, hs, rfl⟩
  · rintro ⟨r, hr, v, hv, hs, rfl⟩
    exact ⟨r, hr, v, hv, sc, hs, rfl, rfl⟩

theorem mem_decodedSCs (v : AxeRuleResult) (sc : String) :
    sc ∈ decodedSCs v ↔ ∃ tag ∈ v.wcagTags, parseWcagTag tag = some sc := by
  simp [decodedSCs, List.mem_filterMap]

theorem violationEntries_ne_nil (scanResults : List ScanResult) (sc : String) :
    violationEntries scanResults sc ≠ [] ↔
      ∃ r ∈ scanResults, ∃ v ∈ r.violations, ∃ tag ∈ v.wcagTags,
        parseWcagTag tag = some sc := by
  constructor
  · intro h
    obtain ⟨p, hp⟩ := List.exists_mem_of_ne_nil _ h
    obtain ⟨r, hr, v, hv, hs, rfl⟩ := (mem_violationEntries scanResults sc p).mp hp
    exact ⟨r, hr, v, hv, (mem_decodedSCs v sc).mp hs⟩
  · rintro ⟨r, hr, v, hv, tag, htag, hdec⟩ hnil
    have : (r.url, v.description) ∈ violationEntries scanResults sc :=
      (mem_violationEntries scanResults sc _).mpr
        ⟨r, hr, v, hv, (mem_decodedSCs v sc).mpr ⟨tag, htag, hdec⟩, rfl⟩
    simp [hnil] at this

theorem incompleteUrls_ne_nil (scanResults : List ScanResult) (sc : String) :
    incompleteUrls scanResults sc ≠ [] ↔
      ∃ r ∈ scanResults, ∃ f ∈ r.incomplete, ∃ tag ∈ f.wcagTags,
        parseWcagTag tag = some sc := by
  rw [Ne, incompleteUrls, firstSeenDedup_eq_nil, ← Ne]
  constructor
  · intro h
    obtain ⟨u, hu⟩ := List.exists_mem_of_ne_nil _ h
    rw [List.mem_flatMap] at hu
    obtain ⟨r, hr, hif⟩ := hu
    simp only [List.any_eq_true, List.elem_iff] at hif
    by_cases hc : ∃ f ∈ r.incomplete, sc ∈ decodedSCs f
    · obtain ⟨f, hf, hs⟩ := hc
      exact ⟨r, hr, f, hf, (mem_decodedSCs f sc).mp hs⟩
    · rw [if_neg hc] at hif
      simp at hif
  · rintro ⟨r, hr, f, hf, tag, htag, hdec⟩ hnil
    have hc : r.incomplete.any (fun g => (decodedSCs g).contains sc) = true :=
      List.any_eq_true.mpr ⟨f, hf,
        List.elem_iff.mpr ((mem_decodedSCs f sc).mpr ⟨tag, htag, hdec⟩)⟩
    have hmem : r.url ∈ scanResults.flatMap (fun r =>
        if r.incomplete.any (fun f => (decodedSCs f).contains sc) then [r.url] else []) := by
      refine List.mem_flatMap.mpr ⟨r, hr, ?_⟩
      rw [if_pos hc]
      exact List.mem_singleton.mpr rfl
    rw [hnil] at hmem
    simp at hmem

theorem length_filterMap_ifeq {α : Type} (l : List String) (sc : String) (x : α) :
    (l.filterMap (fun s => if s = sc then some x else none)).length = l.count sc := by
  induction l with
  | nil => rfl
  | cons a rest ih =>
    by_cases h : a = sc
    · simp [List.filterMap_cons, h, ih, List.count_cons]
    · simp [List.filterMap_cons, h, ih, List.count_cons]

theorem violationEntries_length (scanResults : List ScanResult) (sc : String) :
    (violationEntries scanResults sc).length =
      (scanResults.map
        (fun r => (r.violations.map (fun v => (decodedSCs v).count sc)).sum)).sum := by
  unfold violationEntries
  rw [List.length_flatMap]
  congr 1
  apply List.map_eq_map_iff.mpr
  intro r _
  simp only [Function.comp]
  rw [List.length_flatMap]
  congr 1
  apply List.map_eq_map_iff.mpr
  intro v _
  simp only [Function.comp]
  exact length_filterMap_ifeq _ sc _

theorem violationUrls_toFinset (scanResults : List ScanResult) (sc : String) :
    ((violationEntries scanResults sc).map Prod.fst).toFinset =
      ((scanResults.filter
        (fun r => r.violations.any (fun v => (decodedSCs v).contains sc))).map
          (fun r => r.url)).toFinset := by
  ext u
  simp only [List.mem_toFinset, List.mem_map, List.mem_filter, List.any_eq_true]
  constructor
  · rintro ⟨p, hp, rfl⟩
    obtain ⟨r, hr, v, hv, hs, rfl⟩ := (mem_violationEntries scanResults sc p).mp hp
    exact ⟨r, ⟨hr, ⟨v, hv, List.elem_iff.mpr hs⟩⟩, rfl⟩
  · rintro ⟨r, ⟨hr, ⟨v, hv, hs⟩⟩, rfl⟩
    exact ⟨(r.url, v.description),
      (mem_violationEntries scanResults sc _).mpr ⟨r, hr, v, hv, List.elem_iff.mp hs, rfl⟩, rfl⟩

/-- C1: every entry of `aggregateResults` resolves its verdict as
fail-if-any-violation, else incomplete-if-any-incomplete, else pass, and
carries the non-deduplicated total violation count summed across
resources, the number of distinct resources with violations, the total
number of resources scanned, and at most three deduplicated issue
descriptions in first-seen order. -/
theorem claim1_aggregateResults (scanResults : List ScanResult) (sc : String)
    (res : WcagScResult) (hmem : (sc, res) ∈ aggregateResults scanResults) :
    (res.status = VerdictStatus.fail ↔
      ∃ r ∈ scanResults, ∃ v ∈ r.violations, ∃ tag ∈ v.wcagTags,
        parseWcagTag tag = some sc) ∧
    (res.status = VerdictStatus.incomplete ↔
      (¬∃ r ∈ scanResults, ∃ v ∈ r.violations, ∃ tag ∈ v.wcagTags,
        parseWcagTag tag = some sc) ∧
      ∃ r ∈ scanResults, ∃ f ∈ r.incomplete, ∃ tag ∈ f.wcagTags,
        parseWcagTag tag = some sc) ∧
    (res.status = VerdictStatus.pass ↔
      (¬∃ r ∈ scanResults, ∃ v ∈ r.violations, ∃ tag ∈ v.wcagTags,
        parseWcagTag tag = some sc) ∧
      ¬∃ r ∈ scanResults, ∃ f ∈ r.incomplete, ∃ tag ∈ f.wcagTags,
        parseWcagTag tag = some sc) ∧
    res.totalViolations =
      (scanResults.map
        (fun r => (r.violations.map (fun v => (decodedSCs v).count sc)).sum)).sum ∧
    res.urlsWithViolations =
      ((scanResults.filter
        (fun r => r.violations.any (fun v => (decodedSCs v).contains sc))).map
          (fun r => r.url)).toFinset.card ∧
    res.totalUrls = scanResults.length ∧
    res.topIssues.Nodup ∧
    res.topIssues.length ≤ 3 ∧
    res.topIssues.IsPrefix
      (firstSeenDedup ((violationEntries scanResults sc).map Prod.snd)) ∧
    res.topIssues.length =
      min 3 (firstSeenDedup ((violationEntries scanResults sc).map Prod.snd)).length := by
  obtain ⟨sc', hsc', heq⟩ := List.mem_map.mp hmem
  obtain ⟨hsc, hres⟩ := Prod.mk.injEq .. ▸ heq
  subst hsc
  subst hres
  have hfail := violationEntries_ne_nil scanResults sc'
  have hinc := incompleteUrls_ne_nil scanResults sc'
  have trio :
      ((buildScResult scanResults sc').status = VerdictStatus.fail ↔
        ∃ r ∈ scanResults, ∃ v ∈ r.violations, ∃ tag ∈ v.wcagTags,
          parseWcagTag tag = some sc') ∧
      ((buildScResult scanResults sc').status = VerdictStatus.incomplete ↔
        (¬∃ r ∈ scanResults, ∃ v ∈ r.violations, ∃ tag ∈ v.wcagTags,
          parseWcagTag tag = some sc') ∧
        ∃ r ∈ scanResults, ∃ f ∈ r.incomplete, ∃ tag ∈ f.wcagTags,
          parseWcagTag tag = some sc') ∧
      ((buildScResult scanResults sc').status = VerdictStatus.pass ↔
        (¬∃ r ∈ scanResults, ∃ v ∈ r.violations, ∃ tag ∈ v.wcagTags,
          parseWcagTag tag = some sc') ∧
        ¬∃ r ∈ scanResults, ∃ f ∈ r.incomplete, ∃ tag ∈ f.wcagTags,
          parseWcagTag tag = some sc') := by
    by_cases hE : violationEntries scanResults sc' = []
    · by_cases hI : incompleteUrls scanResults sc' = []
      · have hst : (buildScResult scanResults sc').status = VerdictStatus.pass := by
          simp [buildScResult, List.isEmpty_iff, hE, hI]
        refine ⟨?_, ?_, ?_⟩
        · rw [hst]
          constructor
          · intro h; exact absurd h (by simp)
          · intro h; exact absurd (hfail.mpr h) (by simp [hE])
        · rw [hst]
          constructor
          · intro h; exact absurd h (by simp)
          · rintro ⟨-, h⟩; exact absurd (hinc.mpr h) (by simp [hI])
        · rw [hst]
          refine ⟨fun _ => ⟨fun h => absurd (hfail.mpr h) (by simp [hE]),
            fun h => absurd (hinc.mpr h) (by simp [hI])⟩, fun _ => rfl⟩
      · have hst : (buildScResult scanResults sc').status = VerdictStatus.incomplete := by
          simp [buildScResult, List.isEmpty_iff, hE, hI]
        refine ⟨?_, ?_, ?_⟩
        · rw [hst]
          constructor
          · intro h; exact absurd h (by simp)
          · intro h; exact absurd (hfail.mpr h) (by simp [hE])
        · rw [hst]
          refine ⟨fun _ => ⟨fun h => absurd (hfail.mpr h) (by simp [hE]), hinc.mp hI⟩,
            fun _ => rfl⟩
        · rw [hst]
          constructor
          · intro h; exact absurd h (by simp)
          · rintro ⟨-, h⟩; exact absurd (hinc.mp hI) h
    · have hst : (buildScResult scanResults sc').status = VerdictStatus.fail := by
        simp [buildScResult, List.isEmpty_iff, hE]
      refine ⟨?_, ?_, ?_⟩
      · rw [hst]
        exact ⟨fun _ => hfail.mp hE, fun _ => rfl⟩
      · rw [hst]
        constructor
        · intro h; exact absurd h (by simp)
        · rintro ⟨hnf, -⟩; exact absurd (hfail.mp hE) hnf
      · rw [hst]
        constructor
        · intro h; exact absurd h (by simp)
        · rintro ⟨hnf, -⟩; exact absurd (hfail.mp hE) hnf
  refine ⟨trio.1, trio.2.1, trio.2.2, ?_, ?_, rfl, ?_, ?_, ?_, ?_⟩
  · exact violationEntries_length scanResults sc'
  · show (firstSeenDedup ((violationEntries scanResults sc').map Prod.fst)).length = _
    rw [firstSeenDedup_length, violationUrls_toFinset]
  · exact ((firstSeenDedup_nodup _).sublist (List.take_sublist _ _))
  · exact List.length_take_le _ _
  · exact List.take_prefix _ _
  · exact List.length_take _ _

/-- C1 witness: the theorem applied to the aggregate of `sampleScan` at
criterion `1.1.1` — a fail verdict with one violation on one of two
scanned resources. -/
theorem claim1_witness :
    (buildScResult sampleScan "1.1.1").status = VerdictStatus.fail ∧
    (buildScResult sampleScan "1.1.1").totalViolations =
      (sampleScan.map
        (fun r => (r.violations.map (fun v => (decodedSCs v).count "1.1.1")).sum)).sum ∧
    (buildScResult sampleScan "1.1.1").totalUrls = sampleScan.length := by
  have h := claim1_aggregateResults sampleScan "1.1.1" (buildScResult sampleScan "1.1.1")
    (by decide)
  exact ⟨h.1.mpr (by decide), h.2.2.2.1, h.2.2.2.2.2.1⟩

/-! ## C3 — cell text rewriting -/

/-- C3 counterexample: on a cell with two paragraphs that both contain
runs, `setCellText` leaves the second paragraph untouched, so two text
runs remain and the cell text still contains the old second-paragraph
text — the claim's "exactly one text run … additional paragraphs are
dropped" fails. -/
theorem claim3_counterexample :
    (findElements [setCellText tcTwoParas "new"] "w:r").length = 2 ∧
    getCellText (setCellText tcTwoParas "new") = "newB" := by
  constructor
  · decide
  · decide

theorem mapFirst_append (p : Node → Bool) (f : Node → Node) (pre : List Node) (x : Node)
    (post : List Node) (hpre : ∀ c ∈ pre, p c = false) (hx : p x = true) :
    mapFirst p f (pre ++ x :: post) = pre ++ f x :: post := by
  induction pre with
  | nil => simp [mapFirst, hx]
  | cons c cs ih =>
    have hc := hpre c (List.mem_cons_self _ _)
    simp only [List.cons_append, mapFirst, hc, Bool.false_eq_true, if_false, List.append_eq]
    rw [ih fun d hd => hpre d (List.mem_cons_of_mem _ hd)]

theorem updateFirstRun_hasKey (tag : String) (run : Node) (text : String) :
    hasKey tag (updateFirstRun run text) = hasKey tag run := by
  cases run with
  | text s => rfl
  | elem t ra rcs =>
    simp only [updateFirstRun]
    cases rcs.find? (hasKey "w:t") with
    | none => rfl
    | some t0 => rfl

/-- C3 as amended: on a cell whose child list contains a paragraph,
`setCellText` rewrites only the **first** paragraph — its non-run children
stay, its runs collapse to exactly one run carrying the new text (with the
first pre-existing run's tag attributes and non-text children preserved,
or a default-formatted run synthesized when the paragraph had no run) —
while the paragraphs after it (and their runs) are left unchanged; a cell
with no paragraph at all is returned unchanged. -/
theorem claim3_amended :
    (∀ a cs pre pa pcs post text, (∀ c ∈ pre, hasKey "w:p" c = false) →
      cs = pre ++ Node.elem "w:p" pa pcs :: post →
      ∃ run, hasKey "w:r" run = true ∧
        setCellText (Node.elem "w:tc" a cs) text =
          Node.elem "w:tc" a
            (pre ++ Node.elem "w:p" pa
              (pcs.filter (fun c => !(hasKey "w:r" c)) ++ [run]) :: post) ∧
        (pcs.filter (fun c => !(hasKey "w:r" c)) ++ [run]).filter (hasKey "w:r") = [run] ∧
        (pcs.find? (hasKey "w:r") = none → run = Node.elem "w:r" [] [mkTextEl text]) ∧
        (∀ ra rcs, pcs.find? (hasKey "w:r") = some (Node.elem "w:r" ra rcs) →
          run = Node.elem "w:r" ra
            (match rcs.find? (hasKey "w:t") with
             | none => rcs ++ [mkTextEl text]
             | some t0 => rcs.filter (fun c => !(hasKey "w:t" c)) ++
                 [Node.elem "w:t" (setTextAttr (match t0 with
                    | Node.elem _ ta _ => ta
                    | Node.text _ => [])) [Node.text text]]))) ∧
    (∀ a cs text, cs.any (hasKey "w:p") = false →
      setCellText (Node.elem "w:tc" a cs) text = Node.elem "w:tc" a cs) := by
  constructor
  · intro a cs pre pa pcs post text hpre hcs
    subst hcs
    have hanyp : (pre ++ Node.elem "w:p" pa pcs :: post).any (hasKey "w:p") = true :=
      List.any_eq_true.mpr ⟨Node.elem "w:p" pa pcs,
        List.mem_append_right _ (List.mem_cons_self _ _), rfl⟩
    refine ⟨(match pcs.find? (hasKey "w:r") with
            | none => Node.elem "w:r" [] [mkTextEl text]
            | some r => updateFirstRun r text), ?_, ?_, ?_, ?_, ?_⟩
    · cases hfind : pcs.find? (hasKey "w:r") with
      | none => rfl
      | some r =>
        simp only [hfind]
        rw [updateFirstRun_hasKey]
        exact List.find?_some hfind
    · simp only [setCellText, if_pos rfl, hanyp, if_true]
      rw [mapFirst_append (hasKey "w:p") _ pre (Node.elem "w:p" pa pcs) post hpre rfl]
      cases hfind : pcs.find? (hasKey "w:r") with
      | none =>
        simp only [hfind]
        have hnorun : ∀ c ∈ pcs, (!(hasKey "w:r" c)) = true := by
          intro c hc
          have := List.find?_eq_none.mp hfind c hc
          simp [this]
        rw [List.filter_eq_self.mpr hnorun]
      | some r => simp only [hfind]
    · cases hfind : pcs.find? (hasKey "w:r") with
      | none =>
        simp only [hfind, List.filter_append]
        have h1 : (pcs.filter (fun c => !(hasKey "w:r" c))).filter (hasKey "w:r") = [] := by
          rw [List.filter_filter]
          apply List.filter_eq_nil_iff.mpr
          intro c _
          simp [Bool.and_comm]
        rw [h1]
        simp [List.filter_cons, hasKey]
      | some r =>
        have hr : hasKey "w:r" (updateFirstRun r text) = true := by
          rw [updateFirstRun_hasKey]
          exact List.find?_some hfind
        simp only [hfind, List.filter_append]
        have h1 : (pcs.filter (fun c => !(hasKey "w:r" c))).filter (hasKey "w:r") = [] := by
          rw [List.filter_filter]
          apply List.filter_eq_nil_iff.mpr
          intro c _
          simp [Bool.and_comm]
        rw [h1]
        simp [List.filter_cons, hr]
    · intro hfind
      simp only [hfind]
    · intro ra rcs hfind
      simp only [hfind, updateFirstRun]
      cases hT : rcs.find? (hasKey "w:t") with
      | none => rfl
      | some t0 => rfl
  · intro a cs text hno
    simp [setCellText, hno]

/-- C3 witness: the amended statement applied to the concrete
two-paragraph cell `tcTwoParas` — the first paragraph's runs collapse to
one run carrying `"new"` with the first run's attributes, and the second
paragraph survives unchanged. -/
theorem claim3_witness :
    ∃ run, hasKey "w:r" run = true ∧
      setCellText (Node.elem "w:tc" [] [p1C3, p2C3]) "new" =
        Node.elem "w:tc" []
          ([] ++ Node.elem "w:p" []
            (([Node.elem "w:r" [("x", "y")] [Node.elem "w:t" [] [Node.text "A"]],
               Node.elem "w:r" [] [Node.elem "w:t" [] [Node.text "A2"]]].filter
                 (fun c => !(hasKey "w:r" c))) ++ [run]) :: [p2C3]) ∧
      ([Node.elem "w:r" [("x", "y")] [Node.elem "w:t" [] [Node.text "A"]],
        Node.elem "w:r" [] [Node.elem "w:t" [] [Node.text "A2"]]].filter
          (fun c => !(hasKey "w:r" c)) ++ [run]).filter (hasKey "w:r") = [run] := by
  obtain ⟨run, h1, h2, h3, -, -⟩ := claim3_amended.1 [] [p1C3, p2C3] []
    [] [Node.elem "w:r" [("x", "y")] [Node.elem "w:t" [] [Node.text "A"]],
        Node.elem "w:r" [] [Node.elem "w:t" [] [Node.text "A2"]]] [p2C3] "new"
    (by intro c hc; simp at hc) (by simp [p1C3])
  exact ⟨run, h1, h2, h3⟩

/-! ## C4 — the cell mutator preserves row classification -/

theorem setCellText_hasKey (tag : String) (tc : Node) (text : String) :
    hasKey tag (setCellText tc text) = hasKey tag tc := by
  cases tc with
  | text s => rfl
  | elem t a cs =>
    simp only [setCellText]
    split_ifs <;> rfl

theorem cellUpdater_hasKey (tag : String) (s : QuestionScore) (count i : Nat) (tc : Node) :
    hasKey tag (cellUpdater s count i tc) = hasKey tag tc := by
  simp only [cellUpdater]
  split_ifs <;> simp [setCellText_hasKey]

theorem cellUpdater_zero (s : QuestionScore) (count : Nat) (tc : Node) :
    cellUpdater s count 0 tc = tc := by
  simp [cellUpdater]

theorem mapIdxFrom_length {α : Type} (f : Nat → α → α) (i : Nat) (l : List α) :
    (mapIdxFrom f i l).length = l.length := by
  induction l generalizing i with
  | nil => rfl
  | cons a rest ih => simp [mapIdxFrom, ih]

theorem mapIdxFrom_map_eq {α β : Type} (f : Nat → α → α) (h : α → β)
    (hh : ∀ j b, h (f j b) = h b) (i : Nat) (l : List α) :
    (mapIdxFrom f i l).map h = l.map h := by
  induction l generalizing i with
  | nil => rfl
  | cons a rest ih => simp [mapIdxFrom, hh, ih]

theorem mapIdxFrom_forall {α : Type} (f : Nat → α → α) (p : α → Bool)
    (hf : ∀ j b, p (f j b) = p b) (i : Nat) (l : List α)
    (hl : ∀ b ∈ l, p b = true) : ∀ a ∈ mapIdxFrom f i l, p a = true := by
  induction l generalizing i with
  | nil => intro a ha; simp [mapIdxFrom] at ha
  | cons b rest ih =>
    intro a ha
    simp only [mapIdxFrom, List.mem_cons] at ha
    rcases ha with rfl | ha
    · rw [hf]; exact hl b (List.mem_cons_self _ _)
    · exact ih _ (fun x hx => hl x (List.mem_cons_of_mem _ hx)) a ha

theorem replaceFiltered_filter (p : Node → Bool) :
    ∀ (cs news : List Node), (∀ n ∈ news, p n = true) →
      news.length = (cs.filter p).length →
      (replaceFiltered p news cs).filter p = news := by
  intro cs
  induction cs with
  | nil =>
    intro news _ hlen
    cases news with
    | nil => rfl
    | cons n ns => simp at hlen
  | cons c cs ih =>
    intro news hnews hlen
    by_cases hc : p c = true
    · cases news with
      | nil => rw [List.filter_cons_of_pos hc] at hlen; simp at hlen
      | cons n ns =>
        simp only [replaceFiltered]
        rw [if_pos hc]
        rw [List.filter_cons_of_pos (hnews n (List.mem_cons_self _ _))]
        rw [List.filter_cons_of_pos hc] at hlen
        simp only [List.length_cons, Nat.add_right_cancel_iff] at hlen
        rw [ih ns (fun x hx => hnews x (List.mem_cons_of_mem _ hx)) hlen]
    · simp only [replaceFiltered]
      rw [if_neg hc]
      rw [List.filter_cons_of_neg hc]
      rw [List.filter_cons_of_neg hc] at hlen
      exact ih news hnews hlen

theorem classifyRow_eq_first (cells : List String) (cellCount : Nat) :
    classifyRow cells cellCount = classifyFirst (jsTrim ((cells.head?).getD "")) := by
  simp only [classifyRow, classifyFirst]
  by_cases hfc : jsTrim ((cells.head?).getD "") = ""
  · rw [hfc]
    have e1 : (jsLower "" = "questions") = False := by simp [jsLower]
    have e2 : jsIncludes (jsLower "") "category subtotal" = false := by decide
    have e3 : secPrefixTest "" = false := by decide
    simp only [e1, e2, e3, Bool.false_eq_true, if_false]
    have e4 : (("" : String).length > 0) = False := by simp
    simp only [e4, if_false]
    split_ifs <;> rfl
  · split_ifs with h1 h2 h3 h4 h5 <;> simp_all

theorem tableRowNodes_elem (a : List (String × String)) (cs : List Node) :
    tableRowNodes (Node.elem "w:tbl" a cs) = cs.filter (hasKey "w:tr") := by
  simp [tableRowNodes, getChildren]

theorem rowCellNodes_elem (a : List (String × String)) (cs : List Node) :
    rowCellNodes (Node.elem "w:tr" a cs) = cs.filter (hasKey "w:tc") := by
  simp [rowCellNodes, getChildren]

theorem updateRowCells_hasKey (tag : String) (tr : Node) (s : QuestionScore) :
    hasKey tag (updateRowCells tr s) = hasKey tag tr := by
  cases tr with
  | text s0 => rfl
  | elem t a cs =>
    simp only [updateRowCells]
    split_ifs <;> rfl

theorem updateSubtotalRow_hasKey (tag : String) (tr : Node) (tw tm : Int) :
    hasKey tag (updateSubtotalRow tr tw tm) = hasKey tag tr := by
  cases tr with
  | text s0 => rfl
  | elem t a cs =>
    simp only [updateSubtotalRow]
    split_ifs <;> rfl

theorem updateRowCells_headText (tr : Node) (s : QuestionScore) :
    ((rowCellTexts (updateRowCells tr s)).head?).getD "" =
      ((rowCellTexts tr).head?).getD "" := by
  cases tr with
  | text s0 => rfl
  | elem t a cs =>
    simp only [updateRowCells]
    split_ifs with ht hlen
    · subst ht
      have hnews : ∀ n ∈ mapIdxFrom (cellUpdater s (cs.filter (hasKey "w:tc")).length) 0
          (cs.filter (hasKey "w:tc")), hasKey "w:tc" n = true :=
        mapIdxFrom_forall _ _ (fun j b => cellUpdater_hasKey _ s _ j b) 0 _
          (fun b hb => (List.mem_filter.mp hb).2)
      have hlen2 : (mapIdxFrom (cellUpdater s (cs.filter (hasKey "w:tc")).length) 0
          (cs.filter (hasKey "w:tc"))).length = ((cs.filter (hasKey "w:tc"))).length :=
        mapIdxFrom_length _ _ _
      simp only [rowCellTexts, rowCellNodes_elem]
      rw [replaceFiltered_filter _ _ _ hnews hlen2]
      cases htcs : cs.filter (hasKey "w:tc") with
      | nil => rfl
      | cons tc rest =>
        simp [mapIdxFrom, cellUpdater_zero]
    · rfl
    · rfl

theorem updateSubtotalRow_headText (tr : Node) (tw tm : Int) :
    ((rowCellTexts (updateSubtotalRow tr tw tm)).head?).getD "" =
      ((rowCellTexts tr).head?).getD "" := by
  cases tr with
  | text s0 => rfl
  | elem t a cs =>
    simp only [updateSubtotalRow]
    split_ifs with ht
    · subst ht
      have hnews : ∀ n ∈ mapIdxFrom (fun i tc =>
          if i = 6 then setCellText tc (toString tw)
          else if i = 5 then setCellText tc (toString tm) else tc) 0
          (cs.filter (hasKey "w:tc")), hasKey "w:tc" n = true := by
        refine mapIdxFrom_forall _ _ ?_ 0 _ (fun b hb => (List.mem_filter.mp hb).2)
        intro j b
        split_ifs <;> simp [setCellText_hasKey]
      have hlen2 := mapIdxFrom_length (fun i tc =>
          if i = 6 then setCellText tc (toString tw)
          else if i = 5 then setCellText tc (toString tm) else tc) 0
          (cs.filter (hasKey "w:tc"))
      simp only [rowCellTexts, rowCellNodes_elem]
      rw [replaceFiltered_filter _ _ _ hnews hlen2]
      cases htcs : cs.filter (hasKey "w:tc") with
      | nil => rfl
      | cons tc rest => simp [mapIdxFrom]
    · rfl

theorem rowTypesOf_eq_clsF (tbl : Node) :
    rowTypesOf tbl = (tableRowNodes tbl).map
      (fun tr => classifyFirst (jsTrim (((rowCellTexts tr).head?).getD ""))) := by
  simp only [rowTypesOf]
  apply List.map_eq_map_iff.mpr
  intro tr _
  exact classifyRow_eq_first _ _

theorem rowTypes_core (a : List (String × String)) (cs : List Node) (g : Nat → Node → Node)
    (hkey : ∀ j b, hasKey "w:tr" (g j b) = hasKey "w:tr" b)
    (hhead : ∀ j b, ((rowCellTexts (g j b)).head?).getD "" = ((rowCellTexts b).head?).getD "")
    (finalTrs : List Node)
    (hfin : finalTrs = mapIdxFrom g 0 (cs.filter (hasKey "w:tr")) ∨
      ∃ init lastRow newLast,
        mapIdxFrom g 0 (cs.filter (hasKey "w:tr")) = init ++ [lastRow] ∧
        finalTrs = init ++ [newLast] ∧
        hasKey "w:tr" newLast = hasKey "w:tr" lastRow ∧
        ((rowCellTexts newLast).head?).getD "" = ((rowCellTexts lastRow).head?).getD "") :
    rowTypesOf (Node.elem "w:tbl" a (replaceFiltered (hasKey "w:tr") finalTrs cs)) =
      rowTypesOf (Node.elem "w:tbl" a cs) := by
  have hallNew : ∀ n ∈ mapIdxFrom g 0 (cs.filter (hasKey "w:tr")), hasKey "w:tr" n = true :=
    mapIdxFrom_forall g _ hkey 0 _ (fun b hb => (List.mem_filter.mp hb).2)
  have hlenNew : (mapIdxFrom g 0 (cs.filter (hasKey "w:tr"))).length =
      (cs.filter (hasKey "w:tr")).length := mapIdxFrom_length _ _ _
  have hallFin : ∀ n ∈ finalTrs, hasKey "w:tr" n = true := by
    rcases hfin with rfl | ⟨init, lastRow, newLast, hsplit, rfl, hkeyL, hheadL⟩
    · exact hallNew
    · intro n hn
      rcases List.mem_append.mp hn with hn | hn
      · exact hallNew n (hsplit ▸ List.mem_append_left _ hn)
      · rcases List.mem_singleton.mp hn with rfl
        rw [hkeyL]
        exact hallNew lastRow (hsplit ▸ List.mem_append_right _ (List.mem_singleton.mpr rfl))
  have hlenFin : finalTrs.length = (cs.filter (hasKey "w:tr")).length := by
    rcases hfin with rfl | ⟨init, lastRow, newLast, hsplit, rfl, hkeyL, hheadL⟩
    · exact hlenNew
    · rw [← hlenNew, hsplit]
      simp
  have hfilter : (replaceFiltered (hasKey "w:tr") finalTrs cs).filter (hasKey "w:tr") =
      finalTrs := replaceFiltered_filter _ _ _ hallFin hlenFin
  rw [rowTypesOf_eq_clsF, rowTypesOf_eq_clsF, tableRowNodes_elem, tableRowNodes_elem, hfilter]
  have hmapNew : (mapIdxFrom g 0 (cs.filter (hasKey "w:tr"))).map
      (fun tr => classifyFirst (jsTrim (((rowCellTexts tr).head?).getD ""))) =
      (cs.filter (hasKey "w:tr")).map
        (fun tr => classifyFirst (jsTrim (((rowCellTexts tr).head?).getD ""))) :=
    mapIdxFrom_map_eq g _ (fun j b => by rw [hhead j b]) 0 _
  rcases hfin with rfl | ⟨init, lastRow, newLast, hsplit, rfl, hkeyL, hheadL⟩
  · exact hmapNew
  · rw [← hmapNew, hsplit]
    simp only [List.map_append, List.map_cons, List.map_nil]
    rw [hheadL]

/-- C4: `updateTable` never changes the table's row count and never
changes any row's classification — reclassifying the mutated table yields
the same row types as before. -/
theorem claim4_cellMutator (tableNode : Node) (scores : List QuestionScore)
    (tableIndex : Nat) :
    rowTypesOf (updateTable tableNode scores tableIndex) = rowTypesOf tableNode ∧
    (tableRowNodes (updateTable tableNode scores tableIndex)).length =
      (tableRowNodes tableNode).length := by
  have main : rowTypesOf (updateTable tableNode scores tableIndex) = rowTypesOf tableNode := by
    cases tableNode with
    | text s => rfl
    | elem t a cs =>
      by_cases ht : t = "w:tbl"
      · subst ht
        simp only [updateTable, tableRowNodes_elem]
        rw [if_pos trivial]
        refine rowTypes_core a cs (fun i tr =>
          match (scores.filter (fun s => decide (s.tableIndex = tableIndex))).reverse.find?
              (fun s => decide (s.rowIndex = i)) with
          | none => tr
          | some s => updateRowCells tr s) ?_ ?_ _ ?_
        · intro j b
          cases hs : (scores.filter (fun s => decide (s.tableIndex = tableIndex))).reverse.find?
              (fun s => decide (s.rowIndex = j)) with
          | none => simp only [hs]
          | some s0 =>
            simp only [hs]
            exact updateRowCells_hasKey _ b s0
        · intro j b
          cases hs : (scores.filter (fun s => decide (s.tableIndex = tableIndex))).reverse.find?
              (fun s => decide (s.rowIndex = j)) with
          | none => simp only [hs]
          | some s0 =>
            simp only [hs]
            exact updateRowCells_headText b s0
        · cases hlast : (mapIdxFrom (fun i tr =>
              match (scores.filter (fun s => decide (s.tableIndex = tableIndex))).reverse.find?
                  (fun s => decide (s.rowIndex = i)) with
              | none => tr
              | some s => updateRowCells tr s) 0 (cs.filter (hasKey "w:tr"))).getLast? with
          | none => exact Or.inl rfl
          | some lastRow =>
            obtain ⟨init, hinit⟩ := List.getLast?_eq_some_iff.mp hlast
            dsimp only
            split_ifs with h1 h2
            · rw [hinit, List.dropLast_concat]
              exact Or.inr ⟨init, lastRow, updateSubtotalRow lastRow _ _, rfl, rfl,
                updateSubtotalRow_hasKey _ _ _ _, updateSubtotalRow_headText _ _ _⟩
            · exact Or.inl rfl
            · exact Or.inl rfl
      · simp only [updateTable]
        rw [if_neg ht]
  refine ⟨main, ?_⟩
  have hlen := congrArg List.length main
  simpa [rowTypesOf] using hlen

/-! ## C5 — tree codec round-trip -/

theorem data_mk (l : List Char) : (String.mk l).data = l := rfl

theorem parseAttrs_recon : ∀ fuel cs attrs rest, parseAttrs fuel cs = some (attrs, rest) →
    serAttrs attrs ++ rest = cs := by
  intro fuel
  induction fuel with
  | zero =>
    intro cs attrs rest h
    unfold parseAttrs at h
    split at h
    · exact absurd h (by simp)
    · simp only [Option.some.injEq, Prod.mk.injEq] at h
      obtain ⟨h1, h2⟩ := h
      subst h1
      subst h2
      rfl
  | succ fuel ih =>
    intro cs attrs rest h
    unfold parseAttrs at h
    split at h
    · next rest0 =>
      split_ifs at h with hempty
      split at h
      · next rest2 heq2 =>
        split at h
        · next rest3 heq3 =>
          split at h
          · next attrs2 rest4 heqP =>
            simp only [Option.some.injEq, Prod.mk.injEq] at h
            obtain ⟨h1, h2⟩ := h
            subst h1
            subst h2
            have hrec := ih rest3 attrs2 rest4 heqP
            simp only [serAttrs, data_mk, List.cons_append, List.append_assoc]
            conv_rhs => rw [← List.takeWhile_append_dropWhile isNameChar rest0, heq2]
            conv_rhs =>
              rw [← List.takeWhile_append_dropWhile (fun c => !(c == '"')) rest2, heq3]
            rw [← hrec]
          · exact absurd h (by simp)
        · exact absurd h (by simp)
      · exact absurd h (by simp)
    · simp only [Option.some.injEq, Prod.mk.injEq] at h
      obtain ⟨h1, h2⟩ := h
      subst h1
      subst h2
      rfl

theorem parseNodes_recon : ∀ fuel cs ns rest, parseNodes fuel cs = some (ns, rest) →
    serNodesList ns ++ rest = cs := by
  intro fuel
  induction fuel with
  | zero =>
    intro cs ns rest h
    cases cs with
    | nil =>
      simp only [parseNodes, Option.some.injEq, Prod.mk.injEq] at h
      obtain ⟨h1, h2⟩ := h
      subst h1
      subst h2
      rfl
    | cons c rem => simp [parseNodes] at h
  | succ fuel ih =>
    intro cs ns rest h
    cases cs with
    | nil =>
      simp only [parseNodes, Option.some.injEq, Prod.mk.injEq] at h
      obtain ⟨h1, h2⟩ := h
      subst h1
      subst h2
      rfl
    | cons c rem =>
      unfold parseNodes at h
      by_cases hc : c = '<'
      · rw [if_pos hc] at h
        subst hc
        split at h
        · next rest2 =>
          simp only [Option.some.injEq, Prod.mk.injEq] at h
          obtain ⟨h1, h2⟩ := h
          subst h1
          subst h2
          rfl
        · split_ifs at h with hempty
          split at h
          · exact absurd h (by simp)
          · next attrs cs2 heqA =>
            split at h
            · next cs3 =>
              split at h
              · exact absurd h (by simp)
              · next children cs4 heqC =>
                split at h
                · next cs5 =>
                  split_ifs at h with hn
                  split at h
                  · next cs6 heq5 =>
                    split at h
                    · exact absurd h (by simp)
                    · next siblings rest7 heqS =>
                      simp only [Option.some.injEq, Prod.mk.injEq] at h
                      obtain ⟨h1, h2⟩ := h
                      subst h1
                      subst h2
                      have hA := parseAttrs_recon fuel _ _ _ heqA
                      have hC := ih _ _ _ heqC
                      have hS := ih _ _ _ heqS
                      conv_rhs => rw [← List.takeWhile_append_dropWhile isNameChar rem,
                        ← hA, ← hC, ← List.takeWhile_append_dropWhile isNameChar cs5]
                      rw [hn, heq5, ← hS]
                      simp [serNodesList, serNode, data_mk, List.append_assoc]
                  · exact absurd h (by simp)
                · exact absurd h (by simp)
            · exact absurd h (by simp)
      · rw [if_neg hc] at h
        split at h
        · exact absurd h (by simp)
        · next ns2 rest2 heqT =>
          simp only [Option.some.injEq, Prod.mk.injEq] at h
          obtain ⟨h1, h2⟩ := h
          subst h1
          subst h2
          have hT := ih _ _ _ heqT
          simp only [serNodesList, serNode, data_mk, List.append_assoc]
          rw [hT, List.takeWhile_append_dropWhile]

/-- C5: for every markup input the codec accepts, serializing the parsed
tree reproduces the input byte-for-byte.  The codec itself is modelled
from spec §4.1 (the implementation lives in the external
`fast-xml-parser` dependency, outside the repository sources). -/
theorem claim5_roundTrip (x : String) (ns : List Node) (h : parseXml x = some ns) :
    buildXml ns = x := by
  unfold parseXml at h
  split at h
  · next ns2 heq =>
    simp only [Option.some.injEq] at h
    subst h
    have hr := parseNodes_recon _ _ _ _ heq
    rw [List.append_nil] at hr
    unfold buildXml
    rw [hr]
  · exact absurd h (by simp)

/-- C5 witness: a concrete accepted document round-trips identically. -/
theorem claim5_witness :
    parseXml "<w:tbl border=\"1\"><w:tr>row</w:tr></w:tbl>" =
      some [Node.elem "w:tbl" [("border", "1")] [Node.elem "w:tr" [] [Node.text "row"]]] ∧
    buildXml [Node.elem "w:tbl" [("border", "1")] [Node.elem "w:tr" [] [Node.text "row"]]] =
      "<w:tbl border=\"1\"><w:tr>row</w:tr></w:tbl>" :=
  ⟨rfl, claim5_roundTrip _ _ rfl⟩
